import Mathlib

/-!
Verification of the field-name reconciliation core of `modelado_generator`:
the `normalizer` and `sorter` functions of `src/utils/text_utils.py`,
shallowly embedded in Lean 4.
-/

/-- Models Python's `\w` character class restricted to ASCII: a word
character is a letter, a digit, or an underscore. -/
def isWordChar (c : Char) : Bool :=
  c.isAlphanum || c == '_'

/-- Models Python's `\s` character class restricted to ASCII: space, tab,
newline, carriage return, vertical tab, form feed. -/
def isSpaceChar (c : Char) : Bool :=
  c == ' ' || c == '\t' || c == '\n' || c == '\r' || c == '\x0b' || c == '\x0c'

/-- Models `str.strip()`: drop leading and trailing whitespace. -/
def stripList (cs : List Char) : List Char :=
  ((cs.dropWhile isSpaceChar).reverse.dropWhile isSpaceChar).reverse

/-- Models `re.sub(r"\s+", "_", ·)`: replace each maximal run of
whitespace characters by a single underscore.  The boolean flag records
whether the previous character was part of a whitespace run. -/
def collapseRuns : List Char → Bool → List Char
  | [], _ => []
  | c :: rest, inRun =>
    if isSpaceChar c then
      if inRun then collapseRuns rest true
      else '_' :: collapseRuns rest true
    else c :: collapseRuns rest false

/-- Embedding of `normalizer` (src/utils/text_utils.py):
`text.lower()`, then `re.sub(r"[^\w\s]", "", text)` (keep only word
characters and whitespace), then `re.sub(r"\s+", "_", text.strip())`. -/
def normalizer (text : String) : String :=
  let lowered := text.toList.map Char.toLower
  let kept := lowered.filter (fun c => isWordChar c || isSpaceChar c)
  String.mk (collapseRuns (stripList kept) false)

/-- Models Python `a.startswith(norm)`. -/
def startswith (a norm : String) : Bool :=
  norm.toList.isPrefixOf a.toList

/-- Models a Python `dict` assignment `m[k] = v`: replace the binding of
`k` if present, otherwise append it. -/
def updateMap (m : List (String × String)) (k v : String) : List (String × String) :=
  match m with
  | [] => [(k, v)]
  | (k', v') :: rest => if k' = k then (k, v) :: rest else (k', v') :: updateMap rest k v

/-- One iteration of the matching loop of `sorter` for the pair
`(orig_raw, norm)`: exact match (consuming), else first unconsumed
pool candidate having `norm` as a prefix, else fall back to `norm`
itself (Python `fallback or f"{norm}"`: an empty-string fallback is
falsy and also yields `norm`). -/
def sorterStep («alias» : List String) (st : List (String × String) × List String)
    (orig_raw norm : String) : List (String × String) × List String :=
  let alias_map := st.1
  let used_aliases := st.2
  if norm ∈ «alias» ∧ norm ∉ used_aliases then
    (updateMap alias_map orig_raw norm, norm :: used_aliases)
  else
    let fallback := «alias».find? (fun a => startswith a norm && !(used_aliases.contains a))
    match fallback with
    | some a => (updateMap alias_map orig_raw (if a = "" then norm else a), used_aliases)
    | none => (updateMap alias_map orig_raw norm, used_aliases)

/-- The `for orig_raw, norm in zip(origin, normalized)` loop of `sorter`,
threading the `(alias_map, used_aliases)` state. -/
def runSorter («alias» : List String) (ps : List (String × String))
    (st : List (String × String) × List String) : List (String × String) × List String :=
  ps.foldl (fun s p => sorterStep «alias» s p.1 p.2) st

/-- Models the final comprehension `[alias_map[orig] for orig in origin]`;
`none` models the `KeyError` raised when a key is absent. -/
def lookupEach (m : List (String × String)) : List String → Option (List String)
  | [] => some []
  | o :: rest =>
    match List.lookup o m, lookupEach m rest with
    | some v, some vs => some (v :: vs)
    | _, _ => none

/-- Embedding of `sorter` (src/utils/text_utils.py).  `none` models an
uncaught `KeyError` in the final comprehension. -/
def sorter (origin normalized «alias» : List String) : Option (List String) :=
  let final := runSorter «alias» (origin.zip normalized) ([], [])
  lookupEach final.1 origin

/-- The value `sorter` records in `alias_map` for a field whose
normalized form is `norm`, as a function of the pool and of the current
`used_aliases` set. -/
def stepAssign («alias» used : List String) (norm : String) : String :=
  if norm ∈ «alias» ∧ norm ∉ used then norm
  else
    match «alias».find? (fun a => startswith a norm && !(used.contains a)) with
    | some a => if a = "" then norm else a
    | none => norm

/-- The `used_aliases` set after one iteration of the loop. -/
def stepUsed («alias» used : List String) (norm : String) : List String :=
  if norm ∈ «alias» ∧ norm ∉ used then norm :: used else used

/-- The `used_aliases` set after processing a list of pairs. -/
def usedAfter («alias» used : List String) : List (String × String) → List String
  | [] => used
  | (_, n) :: rest => usedAfter «alias» (stepUsed «alias» used n) rest

example : normalizer "Test String" = "test_string" := by decide
example : normalizer "Test-String" = "teststring" := by decide
example : normalizer "  Test  String  " = "test_string" := by decide
lemma lookup_updateMap (m : List (String × String)) (k o v : String) :
    List.lookup k (updateMap m o v) = if k = o then some v else List.lookup k m := by
  induction m with
  | nil =>
    by_cases h : k = o
    · simp [updateMap, h]
    · have hb : (k == o) = false := beq_eq_false_iff_ne.mpr h
      simp [updateMap, List.lookup_cons, hb, h]
  | cons p rest ih =>
    obtain ⟨k', v'⟩ := p
    by_cases h1 : k' = o
    · subst h1
      by_cases h2 : k = k'
      · simp [updateMap, h2]
      · have hb : (k == k') = false := beq_eq_false_iff_ne.mpr h2
        simp [updateMap, List.lookup_cons, hb, h2]
    · by_cases h2 : k = k'
      · have hko : ¬ k = o := fun hc => h1 (h2 ▸ hc)
        have hb : (k == k') = true := beq_iff_eq.mpr h2
        simp [updateMap, h1, List.lookup_cons, hb, hko]
      · have hb : (k == k') = false := beq_eq_false_iff_ne.mpr h2
        simp [updateMap, h1, List.lookup_cons, hb, ih]

lemma sorterStep_eq («alias» : List String) (m : List (String × String)) (u : List String)
    (o n : String) :
    sorterStep «alias» (m, u) o n
      = (updateMap m o (stepAssign «alias» u n), stepUsed «alias» u n) := by
  unfold sorterStep stepAssign stepUsed
  by_cases h : n ∈ «alias» ∧ n ∉ u
  · simp [h]
  · simp only [if_neg h]
    cases hf : «alias».find? (fun a => startswith a n && !(u.contains a)) with
    | none => simp
    | some a => simp

lemma runSorter_nil («alias» : List String) (st : List (String × String) × List String) :
    runSorter «alias» [] st = st := rfl

lemma runSorter_cons («alias» : List String) (o n : String) (ps : List (String × String))
    (st : List (String × String) × List String) :
    runSorter «alias» ((o, n) :: ps) st = runSorter «alias» ps (sorterStep «alias» st o n) := rfl

lemma runSorter_append («alias» : List String) (ps1 ps2 : List (String × String))
    (st : List (String × String) × List String) :
    runSorter «alias» (ps1 ++ ps2) st = runSorter «alias» ps2 (runSorter «alias» ps1 st) := by
  simp [runSorter, List.foldl_append]

lemma runSorter_snd («alias» : List String) (ps : List (String × String))
    (m : List (String × String)) (u : List String) :
    (runSorter «alias» ps (m, u)).2 = usedAfter «alias» u ps := by
  induction ps generalizing m u with
  | nil => rfl
  | cons p rest ih =>
    obtain ⟨o, n⟩ := p
    rw [runSorter_cons, sorterStep_eq, ih]
    rfl

lemma runSorter_lookup_not_key («alias» : List String) (ps : List (String × String))
    (m : List (String × String)) (u : List String) (k : String)
    (hk : k ∉ ps.map Prod.fst) :
    List.lookup k (runSorter «alias» ps (m, u)).1 = List.lookup k m := by
  induction ps generalizing m u with
  | nil => rfl
  | cons p rest ih =>
    obtain ⟨o, n⟩ := p
    simp only [List.map_cons, List.mem_cons, not_or] at hk
    rw [runSorter_cons, sorterStep_eq, ih _ _ hk.2, lookup_updateMap, if_neg hk.1]

lemma runSorter_lookup_isSome_mono («alias» : List String) (ps : List (String × String))
    (m : List (String × String)) (u : List String) (k : String)
    (h : (List.lookup k m).isSome) :
    (List.lookup k (runSorter «alias» ps (m, u)).1).isSome := by
  induction ps generalizing m u with
  | nil => exact h
  | cons p rest ih =>
    obtain ⟨o, n⟩ := p
    rw [runSorter_cons, sorterStep_eq]
    apply ih
    rw [lookup_updateMap]
    by_cases hk : k = o <;> simp [hk, h]

lemma runSorter_lookup_isSome_of_key («alias» : List String) (ps : List (String × String))
    (m : List (String × String)) (u : List String) (k : String)
    (hk : k ∈ ps.map Prod.fst) :
    (List.lookup k (runSorter «alias» ps (m, u)).1).isSome := by
  induction ps generalizing m u with
  | nil => simp at hk
  | cons p rest ih =>
    obtain ⟨o, n⟩ := p
    simp only [List.map_cons, List.mem_cons] at hk
    rw [runSorter_cons, sorterStep_eq]
    by_cases heq : k = o
    · apply runSorter_lookup_isSome_mono
      rw [lookup_updateMap, if_pos heq]
      rfl
    · rcases hk with hk | hk
      · exact absurd hk heq
      · exact ih _ _ hk

lemma lookupEach_eq_map (m : List (String × String)) (os : List String)
    (h : ∀ o ∈ os, (List.lookup o m).isSome) :
    lookupEach m os = some (os.map (fun o => (List.lookup o m).getD "")) := by
  induction os with
  | nil => rfl
  | cons o rest ih =>
    have h1 : (List.lookup o m).isSome := h o (List.mem_cons_self o rest)
    obtain ⟨v, hv⟩ := Option.isSome_iff_exists.mp h1
    have h2 := ih (fun x hx => h x (List.mem_cons_of_mem o hx))
    simp [lookupEach, hv, h2]

lemma lookupEach_length (m : List (String × String)) (os : List String) (l : List String)
    (h : lookupEach m os = some l) : l.length = os.length := by
  induction os generalizing l with
  | nil => simp [lookupEach] at h; simp [← h]
  | cons o rest ih =>
    simp only [lookupEach] at h
    cases h1 : List.lookup o m with
    | none => rw [h1] at h; simp at h
    | some v =>
      rw [h1] at h
      cases h2 : lookupEach m rest with
      | none => rw [h2] at h; simp at h
      | some vs =>
        rw [h2] at h
        simp at h
        simp [← h, List.length_cons, ih vs h2]

lemma lookupEach_getD (m : List (String × String)) (os : List String) (l : List String)
    (h : lookupEach m os = some l) (i : Nat) (hi : i < os.length) :
    List.lookup (os.getD i "") m = some (l.getD i "") := by
  induction os generalizing l i with
  | nil => simp at hi
  | cons o rest ih =>
    simp only [lookupEach] at h
    cases h1 : List.lookup o m with
    | none => rw [h1] at h; simp at h
    | some v =>
      rw [h1] at h
      cases h2 : lookupEach m rest with
      | none => rw [h2] at h; simp at h
      | some vs =>
        rw [h2] at h
        simp at h
        cases i with
        | zero => simp [← h, h1]
        | succ j =>
          simp only [List.getD_cons_succ, ← h]
          exact ih vs h2 j (by simpa using hi)

lemma sorter_eq_some («alias» origin normalized : List String)
    (hlen : origin.length = normalized.length) :
    sorter origin normalized «alias»
      = some (origin.map (fun o =>
          (List.lookup o (runSorter «alias» (origin.zip normalized) ([], [])).1).getD "")) := by
  unfold sorter
  apply lookupEach_eq_map
  intro o ho
  apply runSorter_lookup_isSome_of_key
  rw [List.map_fst_zip origin normalized (le_of_eq hlen)]
  exact ho

lemma sorter_length («alias» origin normalized l : List String)
    (h : sorter origin normalized «alias» = some l) : l.length = origin.length :=
  lookupEach_length _ _ _ h

lemma sorter_getD («alias» origin normalized l : List String)
    (h : sorter origin normalized «alias» = some l) (i : Nat) (hi : i < origin.length) :
    List.lookup (origin.getD i "") (runSorter «alias» (origin.zip normalized) ([], [])).1
      = some (l.getD i "") :=
  lookupEach_getD _ _ _ h i hi

lemma final_lookup_last («alias» : List String) (ps1 ps2 : List (String × String)) (o n : String)
    (h : o ∉ ps2.map Prod.fst) :
    List.lookup o (runSorter «alias» (ps1 ++ (o, n) :: ps2) ([], [])).1
      = some (stepAssign «alias» (usedAfter «alias» [] ps1) n) := by
  rw [runSorter_append]
  rcases hst : runSorter «alias» ps1 ([], []) with ⟨m1, u1⟩
  have hu1 : u1 = usedAfter «alias» [] ps1 := by
    have := runSorter_snd «alias» ps1 [] []
    rw [hst] at this
    exact this
  rw [runSorter_cons, sorterStep_eq, runSorter_lookup_not_key _ _ _ _ _ h,
    lookup_updateMap, if_pos rfl, hu1]

lemma mem_usedAfter_of_mem («alias» u : List String) (ps : List (String × String)) (a : String)
    (ha : a ∈ u) : a ∈ usedAfter «alias» u ps := by
  induction ps generalizing u with
  | nil => exact ha
  | cons p rest ih =>
    obtain ⟨o, n⟩ := p
    apply ih
    unfold stepUsed
    split
    · exact List.mem_cons_of_mem n ha
    · exact ha

lemma mem_of_mem_usedAfter («alias» u : List String) (ps : List (String × String)) (a : String)
    (ha : a ∈ usedAfter «alias» u ps) : a ∈ u ∨ a ∈ «alias» := by
  induction ps generalizing u with
  | nil => exact Or.inl ha
  | cons p rest ih =>
    obtain ⟨o, n⟩ := p
    rcases ih _ ha with h | h
    · unfold stepUsed at h
      by_cases hc : n ∈ «alias» ∧ n ∉ u
      · rw [if_pos hc] at h
        rcases List.mem_cons.mp h with h | h
        · exact Or.inr (h ▸ hc.1)
        · exact Or.inl h
      · rw [if_neg hc] at h
        exact Or.inl h
    · exact Or.inr h

lemma stepAssign_exact («alias» u : List String) (n : String)
    (hmem : n ∈ «alias») (hun : n ∉ u) : stepAssign «alias» u n = n := by
  unfold stepAssign
  rw [if_pos ⟨hmem, hun⟩]

lemma stepAssign_no_match («alias» u : List String) (n : String)
    (hno : n ∉ «alias») (hnopre : ∀ a ∈ «alias», startswith a n = false) :
    stepAssign «alias» u n = n := by
  unfold stepAssign
  rw [if_neg (fun hc => hno hc.1)]
  have hf : «alias».find? (fun a => startswith a n && !(u.contains a)) = none := by
    rw [List.find?_eq_none]
    intro a ha
    simp [hnopre a ha]
  rw [hf]

lemma stepAssign_cases («alias» u : List String) (n : String) :
    stepAssign «alias» u n = n ∨
      ∃ a, «alias».find? (fun a => startswith a n && !(u.contains a)) = some a ∧
        stepAssign «alias» u n = a := by
  unfold stepAssign
  split
  · exact Or.inl rfl
  · split
    · next a heq =>
      split
      · exact Or.inl rfl
      · exact Or.inr ⟨a, heq, rfl⟩
    · exact Or.inl rfl

lemma stepAssign_mem_used («alias» u : List String) (n : String)
    (h : stepAssign «alias» u n ∈ u) : stepAssign «alias» u n = n := by
  rcases stepAssign_cases «alias» u n with h1 | ⟨a, hf, ha⟩
  · exact h1
  · exfalso
    have hp := List.find?_some hf
    have hnc : (u.contains a) = false := by
      simp only [Bool.and_eq_true] at hp
      simpa using hp.2
    rw [ha] at h
    have : u.contains a = true := List.elem_eq_true_of_mem h
    rw [this] at hnc
    exact Bool.noConfusion hnc

lemma runSorter_lookup_fallback («alias» : List String) (ps : List (String × String))
    (m : List (String × String)) (u : List String) (o n : String)
    (hps : ∀ p ∈ ps, p.1 = o → p.2 = n)
    (hno : n ∉ «alias»)
    (hnopre : ∀ a ∈ «alias», startswith a n = false) :
    List.lookup o (runSorter «alias» ps (m, u)).1
      = if o ∈ ps.map Prod.fst then some n else List.lookup o m := by
  induction ps generalizing m u with
  | nil => simp [runSorter_nil]
  | cons p rest ih =>
    obtain ⟨o', n'⟩ := p
    rw [runSorter_cons, sorterStep_eq]
    by_cases heq : o' = o
    · have hn' : n' = n := hps (o', n') (List.mem_cons_self _ _) heq
      subst hn'
      rw [ih _ _ (fun q hq => hps q (List.mem_cons_of_mem _ hq))]
      rw [lookup_updateMap]
      have hassign : stepAssign «alias» u n' = n' := stepAssign_no_match _ _ _ hno hnopre
      by_cases hmem : o ∈ rest.map Prod.fst
      · simp [heq, hmem, hassign]
      · simp [heq, hmem, hassign]
    · rw [ih _ _ (fun q hq => hps q (List.mem_cons_of_mem _ hq))]
      rw [lookup_updateMap, if_neg (fun hc : o = o' => heq hc.symm)]
      have hoo' : ¬ o = o' := fun hc => heq hc.symm
      by_cases hmem : o ∈ rest.map Prod.fst
      · simp [List.map_cons, List.mem_cons, hoo', hmem]
      · simp [List.map_cons, List.mem_cons, hoo', hmem]

lemma sorter_getD_last («alias» origin normalized l : List String)
    (hlen : origin.length = normalized.length)
    (hrun : sorter origin normalized «alias» = some l)
    (i j : Nat) (hi : i < origin.length) (hj : j < origin.length)
    (heq : origin.getD j "" = origin.getD i "")
    (hlast : ∀ k, j < k → k < origin.length → origin.getD k "" ≠ origin.getD i "") :
    l.getD i ""
      = stepAssign «alias» (usedAfter «alias» [] ((origin.zip normalized).take j))
          (normalized.getD j "") := by
  have hg := sorter_getD «alias» origin normalized l hrun i hi
  have hzlen : (origin.zip normalized).length = origin.length := by
    rw [List.length_zip, hlen, Nat.min_self]
  have hjz : j < (origin.zip normalized).length := by omega
  have hjn : j < normalized.length := by omega
  have hpair : (origin.zip normalized)[j] = (origin.getD j "", normalized.getD j "") := by
    rw [List.getElem_zip, List.getD_eq_getElem origin "" hj, List.getD_eq_getElem normalized "" hjn]
  have hdecomp : origin.zip normalized
      = (origin.zip normalized).take j
        ++ (origin.getD j "", normalized.getD j "") :: (origin.zip normalized).drop (j + 1) := by
    conv_lhs => rw [← List.take_append_drop j (origin.zip normalized)]
    rw [List.drop_eq_getElem_cons hjz, hpair]
  have hnk : origin.getD j "" ∉ ((origin.zip normalized).drop (j + 1)).map Prod.fst := by
    rw [List.map_drop, List.map_fst_zip origin normalized (le_of_eq hlen)]
    intro hmem
    obtain ⟨k, hk, hval⟩ := List.mem_iff_getElem.mp hmem
    rw [List.getElem_drop] at hval
    have hklen : j + 1 + k < origin.length := by
      have := List.length_drop (j + 1) origin
      omega
    refine hlast (j + 1 + k) (by omega) hklen ?_
    rw [List.getD_eq_getElem origin "" hklen, hval, heq]
  rw [← heq, hdecomp, final_lookup_last «alias» _ _ _ _ hnk] at hg
  exact (Option.some.inj hg).symm

lemma getD_map_normalizer (origin : List String) (p : Nat) (hp : p < origin.length) :
    (origin.map normalizer).getD p "" = normalizer (origin.getD p "") := by
  have hp' : p < (origin.map normalizer).length := by simpa using hp
  rw [List.getD_eq_getElem _ "" hp', List.getD_eq_getElem origin "" hp, List.getElem_map]

lemma sorter_getD_fallback («alias» origin l : List String)
    (hrun : sorter origin (origin.map normalizer) «alias» = some l)
    (p : Nat) (hp : p < origin.length)
    (hno : normalizer (origin.getD p "") ∉ «alias»)
    (hnopre : ∀ a ∈ «alias», startswith a (normalizer (origin.getD p "")) = false) :
    l.getD p "" = normalizer (origin.getD p "") := by
  have hg := sorter_getD «alias» origin (origin.map normalizer) l hrun p hp
  have hps : ∀ q ∈ origin.zip (origin.map normalizer), q.1 = origin.getD p "" →
      q.2 = normalizer (origin.getD p "") := by
    intro q hq heq
    obtain ⟨k, hk, hkq⟩ := List.mem_iff_getElem.mp hq
    have hkz : k < origin.length := by
      have hlz := List.length_zip origin (origin.map normalizer)
      rw [hlz] at hk
      omega
    rw [List.getElem_zip] at hkq
    rw [← hkq] at heq ⊢
    simp only [List.getElem_map] at heq ⊢
    rw [heq]
  have hfall := runSorter_lookup_fallback «alias» (origin.zip (origin.map normalizer)) [] []
      (origin.getD p "") (normalizer (origin.getD p "")) hps hno hnopre
  have hkey : origin.getD p "" ∈ (origin.zip (origin.map normalizer)).map Prod.fst := by
    rw [List.map_fst_zip origin _ (by simp), List.getD_eq_getElem origin "" hp]
    exact List.getElem_mem hp
  rw [if_pos hkey] at hfall
  rw [hfall] at hg
  exact (Option.some.inj hg).symm

lemma uint32_le_iff {m : Nat} (hm : m < UInt32.size) (d : UInt32) :
    UInt32.ofNat m ≤ d ↔ m ≤ d.toNat := by
  have h1 : (UInt32.ofNat m).toBitVec.toNat = m := UInt32.toBitVec_eq_of_lt hm
  rw [UInt32.le_def, BitVec.le_def, h1]
  exact Iff.rfl

lemma uint32_le_iff' {m : Nat} (hm : m < UInt32.size) (d : UInt32) :
    d ≤ UInt32.ofNat m ↔ d.toNat ≤ m := by
  have h1 : (UInt32.ofNat m).toBitVec.toNat = m := UInt32.toBitVec_eq_of_lt hm
  rw [UInt32.le_def, BitVec.le_def, h1]
  exact Iff.rfl

lemma isUpper_iff (d : Char) : d.isUpper = true ↔ 65 ≤ d.toNat ∧ d.toNat ≤ 90 := by
  unfold Char.isUpper
  rw [Bool.and_eq_true, decide_eq_true_eq, decide_eq_true_eq]
  constructor
  · rintro ⟨h1, h2⟩
    exact ⟨(uint32_le_iff (by decide) d.val).mp h1, (uint32_le_iff' (by decide) d.val).mp h2⟩
  · rintro ⟨h1, h2⟩
    exact ⟨(uint32_le_iff (by decide) d.val).mpr h1, (uint32_le_iff' (by decide) d.val).mpr h2⟩

lemma isUpper_toLower (c : Char) : c.toLower.isUpper = false := by
  show (if c.toNat ≥ 65 ∧ c.toNat ≤ 90 then Char.ofNat (c.toNat + 32) else c).isUpper = false
  split
  · next h =>
    have hvalid : (Char.toNat c + 32).isValidChar := Or.inl (by omega)
    have htn : (Char.ofNat (Char.toNat c + 32)).toNat = Char.toNat c + 32 := by
      rw [Char.ofNat, dif_pos hvalid]
      rfl
    cases hx : (Char.ofNat (Char.toNat c + 32)).isUpper
    · rfl
    · have hb := (isUpper_iff _).mp hx
      rw [htn] at hb
      omega
  · next h =>
    cases hx : c.isUpper
    · rfl
    · exact absurd ((isUpper_iff c).mp hx) h

lemma toLower_eq_self (c : Char) (h : c.isUpper = false) : c.toLower = c := by
  unfold Char.toLower
  rw [if_neg]
  intro hc
  rw [(isUpper_iff c).mpr ⟨hc.1, hc.2⟩] at h
  exact Bool.noConfusion h

lemma mem_collapseRuns (l : List Char) (b : Bool) (c : Char) (hc : c ∈ collapseRuns l b) :
    c = '_' ∨ (c ∈ l ∧ isSpaceChar c = false) := by
  induction l generalizing b with
  | nil => simp [collapseRuns] at hc
  | cons d rest ih =>
    unfold collapseRuns at hc
    by_cases hd : isSpaceChar d = true
    · rw [if_pos hd] at hc
      cases b with
      | true =>
        simp only [if_true] at hc
        rcases ih true hc with h | ⟨h1, h2⟩
        · exact Or.inl h
        · exact Or.inr ⟨List.mem_cons_of_mem d h1, h2⟩
      | false =>
        simp only [Bool.false_eq_true, if_false] at hc
        rcases List.mem_cons.mp hc with h | h
        · exact Or.inl h
        · rcases ih true h with h' | ⟨h1, h2⟩
          · exact Or.inl h'
          · exact Or.inr ⟨List.mem_cons_of_mem d h1, h2⟩
    · rw [if_neg hd] at hc
      rcases List.mem_cons.mp hc with h | h
      · subst h
        exact Or.inr ⟨List.mem_cons_self _ _, Bool.eq_false_iff.mpr hd⟩
      · rcases ih false h with h' | ⟨h1, h2⟩
        · exact Or.inl h'
        · exact Or.inr ⟨List.mem_cons_of_mem d h1, h2⟩

lemma mem_dropWhileChar (l : List Char) (c : Char) (hc : c ∈ l.dropWhile isSpaceChar) : c ∈ l :=
  (List.dropWhile_sublist isSpaceChar).subset hc

lemma mem_stripList (l : List Char) (c : Char) (hc : c ∈ stripList l) : c ∈ l := by
  unfold stripList at hc
  rw [List.mem_reverse] at hc
  have h1 := mem_dropWhileChar _ _ hc
  rw [List.mem_reverse] at h1
  exact mem_dropWhileChar _ _ h1

lemma normalizer_mem_char (s : String) (c : Char) (hc : c ∈ (normalizer s).toList) :
    isWordChar c = true ∧ c.isUpper = false ∧ isSpaceChar c = false := by
  have hc' : c ∈ collapseRuns
      (stripList ((s.toList.map Char.toLower).filter (fun c => isWordChar c || isSpaceChar c)))
      false := hc
  rcases mem_collapseRuns _ _ _ hc' with h | ⟨hmem, hns⟩
  · subst h
    exact ⟨by decide, by decide, by decide⟩
  · have hkept := mem_stripList _ _ hmem
    obtain ⟨hlow, hpred⟩ := List.mem_filter.mp hkept
    have hword : isWordChar c = true := by
      rcases Bool.or_eq_true_iff.mp hpred with h | h
      · exact h
      · rw [h] at hns
        exact Bool.noConfusion hns
    obtain ⟨d, hd, hde⟩ := List.mem_map.mp hlow
    exact ⟨hword, hde ▸ isUpper_toLower d, hns⟩

lemma dropWhile_eq_self_of (l : List Char) (h : ∀ c ∈ l, isSpaceChar c = false) :
    l.dropWhile isSpaceChar = l := by
  cases l with
  | nil => rfl
  | cons d rest =>
    rw [List.dropWhile_cons, if_neg (by simp [h d (List.mem_cons_self d rest)])]

lemma stripList_eq_self (l : List Char) (h : ∀ c ∈ l, isSpaceChar c = false) :
    stripList l = l := by
  unfold stripList
  rw [dropWhile_eq_self_of l h,
    dropWhile_eq_self_of _ (fun c hc => h c (List.mem_reverse.mp hc))]
  exact List.reverse_reverse l

lemma collapseRuns_eq_self (l : List Char) (h : ∀ c ∈ l, isSpaceChar c = false) :
    collapseRuns l false = l := by
  induction l with
  | nil => rfl
  | cons d rest ih =>
    unfold collapseRuns
    rw [if_neg (by simp [h d (List.mem_cons_self d rest)]),
      ih (fun c hc => h c (List.mem_cons_of_mem d hc))]

lemma map_toLower_eq_self (l : List Char) (h : ∀ c ∈ l, c.isUpper = false) :
    l.map Char.toLower = l := by
  induction l with
  | nil => rfl
  | cons d rest ih =>
    rw [List.map_cons, toLower_eq_self d (h d (List.mem_cons_self d rest)),
      ih (fun c hc => h c (List.mem_cons_of_mem d hc))]

lemma mk_toList (s : String) : String.mk s.toList = s := rfl

lemma normalizer_of_canonical (t : String)
    (h : ∀ c ∈ t.toList, isWordChar c = true ∧ c.isUpper = false ∧ isSpaceChar c = false) :
    normalizer t = t := by
  show String.mk (collapseRuns
      (stripList ((t.toList.map Char.toLower).filter (fun c => isWordChar c || isSpaceChar c)))
      false) = t
  rw [map_toLower_eq_self _ (fun c hc => (h c hc).2.1),
    List.filter_eq_self.mpr (fun c hc => by rw [(h c hc).1]; rfl),
    stripList_eq_self _ (fun c hc => (h c hc).2.2),
    collapseRuns_eq_self _ (fun c hc => (h c hc).2.2)]
  exact mk_toList t

lemma startswith_empty (a : String) : startswith a "" = true := by
  unfold startswith
  have h : ("" : String).toList = [] := rfl
  rw [h]
  cases a.toList <;> rfl

/-- Claim C1 counterexample: with origin `["F", "Fa"]`, normalized
`["f", "fa"]` and pool `["fab"]`, the pool alias `"fab"` is assigned by
the prefix-match branch at index 0 (it is not the fallback, since it
differs from both normalized forms) and assigned again by the
prefix-match branch at index 1, and the consumed set stays empty: the
prefix-match branch never marks its alias consumed. -/
theorem claim1_counterexample :
    sorter ["F", "Fa"] ["f", "fa"] ["fab"] = some ["fab", "fab"] ∧
      usedAfter ["fab"] [] [("F", "f"), ("Fa", "fa")] = [] ∧
      ("fab" : String) ≠ "f" ∧ ("fab" : String) ≠ "fa" := by
  refine ⟨by decide, by decide, by decide, by decide⟩

/-- Claim C1 amended: only the exact-match branch marks an alias
consumed.  An alias consumed at some point stays consumed for the rest
of the call, and at any later step the matcher can output it only as
the fallback equal to that field's own normalized form — never as a
fresh exact or prefix assignment from the pool.  The prefix-match
branch itself does not consume. -/
theorem claim1_consumed_amended («alias» u : List String) (ps : List (String × String))
    (n a : String) (ha : a ∈ u) :
    a ∈ usedAfter «alias» u ps ∧
      (stepAssign «alias» (usedAfter «alias» u ps) n = a → a = n) := by
  refine ⟨mem_usedAfter_of_mem «alias» u ps a ha, ?_⟩
  intro hs
  have hmem : stepAssign «alias» (usedAfter «alias» u ps) n ∈ usedAfter «alias» u ps := by
    rw [hs]
    exact mem_usedAfter_of_mem «alias» u ps a ha
  have := stepAssign_mem_used «alias» (usedAfter «alias» u ps) n hmem
  rw [hs] at this
  exact this

/-- Witness for the amended claim C1 at a concrete input. -/
theorem claim1_consumed_amended_witness :
    ("a" : String) ∈ ["a"] ∧
      ("a" ∈ usedAfter ["x"] ["a"] [("B", "b")] ∧
        (stepAssign ["x"] (usedAfter ["x"] ["a"] [("B", "b")]) "b" = "a" → ("a" : String) = "b")) :=
  ⟨by decide, claim1_consumed_amended ["x"] ["a"] [("B", "b")] "b" "a" (by decide)⟩

/-- Claim C2 counterexample: with origin `["A", "A"]`, normalized
`["a", "a"]` and pool `["a", "ab"]`, running steps a-c at index 0 on
the fresh state chooses `"a"` (exact match), yet the output at index 0
is `"ab"`: the result is read back through a dict keyed by the original
string, which the second occurrence overwrote. -/
theorem claim2_counterexample :
    sorter ["A", "A"] ["a", "a"] ["a", "ab"] = some ["ab", "ab"] ∧
      stepAssign ["a", "ab"] [] "a" = "a" ∧ ("ab" : String) ≠ "a" := by
  refine ⟨by decide, by decide, by decide⟩

/-- Claim C2 amended: steps a-c are re-run at every index in input
order (consuming pool aliases as they go), but the output at index `i`
is the assignment computed at the LAST index `j` holding the same
original string, because the internal dict is keyed by the original
string and later occurrences overwrite earlier ones. -/
theorem claim2_last_occurrence_value («alias» origin normalized l : List String)
    (hlen : origin.length = normalized.length)
    (hrun : sorter origin normalized «alias» = some l)
    (i j : Nat) (hi : i < origin.length) (hj : j < origin.length)
    (heq : origin.getD j "" = origin.getD i "")
    (hlast : ∀ k, j < k → k < origin.length → origin.getD k "" ≠ origin.getD i "") :
    l.getD i ""
      = stepAssign «alias» (usedAfter «alias» [] ((origin.zip normalized).take j))
          (normalized.getD j "") :=
  sorter_getD_last «alias» origin normalized l hlen hrun i j hi hj heq hlast

/-- Witness for the amended claim C2 at a concrete input. -/
theorem claim2_last_occurrence_value_witness :
    sorter ["A", "A"] ["a", "a"] ["a", "ab"] = some ["ab", "ab"] ∧
      (["ab", "ab"] : List String).getD 0 ""
        = stepAssign ["a", "ab"]
            (usedAfter ["a", "ab"] [] (((["A", "A"] : List String).zip ["a", "a"]).take 1))
            ((["a", "a"] : List String).getD 1 "") :=
  ⟨by decide,
    claim2_last_occurrence_value ["a", "ab"] ["A", "A"] ["a", "a"] ["ab", "ab"]
      (by decide) (by decide) 0 1 (by decide) (by decide) (by decide)
      (by intro k h1 h2; simp only [List.length_cons, List.length_nil] at h2; omega)⟩

/-- Claim C3 counterexample: with origin `["B", "B"]`, normalized
`["b", "b"]` and pool `["b", "bc"]`, the form `"b"` occurs verbatim in
the pool and no earlier index consumed it, yet the output at index 0 is
`"bc"`, not `"b"`: the later duplicate of the same original string
overwrote the dict entry. -/
theorem claim3_counterexample :
    sorter ["B", "B"] ["b", "b"] ["b", "bc"] = some ["bc", "bc"] ∧
      ("b" : String) ∈ ["b", "bc"] ∧ ("bc" : String) ≠ "b" := by
  refine ⟨by decide, by decide, by decide⟩

/-- Claim C3 amended: if `normalized[i]` occurs verbatim in the pool,
no earlier index consumed it, and the original string at `i` does not
occur again at any later index, then the output at `i` is exactly
`normalized[i]`. -/
theorem claim3_exact_match («alias» origin normalized l : List String)
    (hlen : origin.length = normalized.length)
    (hrun : sorter origin normalized «alias» = some l)
    (i : Nat) (hi : i < origin.length)
    (hmem : normalized.getD i "" ∈ «alias»)
    (hunused : normalized.getD i "" ∉ usedAfter «alias» [] ((origin.zip normalized).take i))
    (hlast : ∀ k, i < k → k < origin.length → origin.getD k "" ≠ origin.getD i "") :
    l.getD i "" = normalized.getD i "" := by
  have h := sorter_getD_last «alias» origin normalized l hlen hrun i i hi hi rfl hlast
  rw [h]
  exact stepAssign_exact «alias» _ _ hmem hunused

/-- Witness for the amended claim C3 at a concrete input. -/
theorem claim3_exact_match_witness :
    sorter ["A"] ["a"] ["a"] = some ["a"] ∧
      ("a" : String) ∈ ["a"] ∧
      ("a" : String) ∉ usedAfter ["a"] [] (((["A"] : List String).zip ["a"]).take 0) ∧
      (["a"] : List String).getD 0 "" = (["a"] : List String).getD 0 "" :=
  ⟨by decide, by decide, by decide,
    claim3_exact_match ["a"] ["A"] ["a"] ["a"] (by decide) (by decide) 0 (by decide)
      (by decide) (by decide)
      (by intro k h1 h2; simp only [List.length_cons, List.length_nil] at h2; omega)⟩

/-- Claim C4: the aligner is total.  For any same-length origin and
normalized sequences and any pool (including the empty pool), `sorter`
returns a value (the `KeyError` branch of the model is never taken) and
the output has the same length as `origin`. -/
theorem claim4_total («alias» origin normalized : List String)
    (hlen : origin.length = normalized.length) :
    ∃ l, sorter origin normalized «alias» = some l ∧ l.length = origin.length := by
  refine ⟨_, sorter_eq_some «alias» origin normalized hlen, ?_⟩
  rw [List.length_map]

/-- Witness for claim C4 at a concrete input with an empty pool. -/
theorem claim4_total_witness :
    (["A"] : List String).length = (["a"] : List String).length ∧
      ∃ l, sorter ["A"] ["a"] [] = some l ∧ l.length = (["A"] : List String).length :=
  ⟨by decide, claim4_total [] ["A"] ["a"] (by decide)⟩

/-- Claim C5: under the aligner's contract (`normalized` is the
elementwise normalizer image of `origin`), if two positions share a
normalized form that is absent from the pool and is a string prefix of
no pool candidate, both output positions receive that shared form as
the fallback, and the fallback value is never added to the consumed
set. -/
theorem claim5_shared_fallback («alias» origin normalized l : List String)
    (hpar : normalized = origin.map normalizer)
    (hrun : sorter origin normalized «alias» = some l)
    (i j : Nat) (hi : i < origin.length) (hj : j < origin.length)
    (hsh : normalized.getD i "" = normalized.getD j "")
    (hno : normalized.getD i "" ∉ «alias»)
    (hnopre : ∀ a ∈ «alias», startswith a (normalized.getD i "") = false) :
    l.getD i "" = normalized.getD i "" ∧ l.getD j "" = normalized.getD j "" ∧
      normalized.getD i "" ∉ usedAfter «alias» [] (origin.zip normalized) := by
  subst hpar
  rw [getD_map_normalizer origin i hi] at hsh hno hnopre ⊢
  rw [getD_map_normalizer origin j hj] at hsh ⊢
  have hnoj : normalizer (origin.getD j "") ∉ «alias» := by
    rw [← hsh]
    exact hno
  have hnoprej : ∀ a ∈ «alias», startswith a (normalizer (origin.getD j "")) = false := by
    intro a ha
    rw [← hsh]
    exact hnopre a ha
  refine ⟨sorter_getD_fallback «alias» origin l hrun i hi hno hnopre,
    sorter_getD_fallback «alias» origin l hrun j hj hnoj hnoprej, ?_⟩
  intro hmem
  rcases mem_of_mem_usedAfter «alias» [] _ _ hmem with h | h
  · exact List.not_mem_nil _ h
  · exact hno h

/-- Witness for claim C5 at a concrete input: `"A b"` and `"a b"` both
normalize to `"a_b"`, which is not in the pool `["zz"]` and is a prefix
of nothing there. -/
theorem claim5_shared_fallback_witness :
    (["a_b", "a_b"] : List String) = (["A b", "a b"] : List String).map normalizer ∧
      sorter ["A b", "a b"] ["a_b", "a_b"] ["zz"] = some ["a_b", "a_b"] ∧
      ((["a_b", "a_b"] : List String).getD 0 "" = (["a_b", "a_b"] : List String).getD 0 "" ∧
        (["a_b", "a_b"] : List String).getD 1 "" = (["a_b", "a_b"] : List String).getD 1 "" ∧
        (["a_b", "a_b"] : List String).getD 0 ""
          ∉ usedAfter ["zz"] [] ((["A b", "a b"] : List String).zip ["a_b", "a_b"])) :=
  ⟨by decide, by decide,
    claim5_shared_fallback ["zz"] ["A b", "a b"] ["a_b", "a_b"] ["a_b", "a_b"]
      (by decide) (by decide) 0 1 (by decide) (by decide) (by decide) (by decide)
      (by decide)⟩

/-- Claim C6: the two end-to-end scenarios of the unit test.  Scenario
A: a full pool yields the three exact matches in order.  Scenario B:
with `"field_2"` missing from the pool, the middle field falls back to
its own normalized form and the result is unchanged. -/
theorem claim6_scenarios :
    sorter ["Field 1", "Field 2", "Field 3"] ["field_1", "field_2", "field_3"]
        ["field_1", "field_2", "field_3"] = some ["field_1", "field_2", "field_3"] ∧
      sorter ["Field 1", "Field 2", "Field 3"] ["field_1", "field_2", "field_3"]
        ["field_1", "field_3"] = some ["field_1", "field_2", "field_3"] := by
  refine ⟨by decide, by decide⟩

/-- Claim C7: every character of `normalizer s` is a word character
(letter, digit or underscore), is not an uppercase letter, and is not a
whitespace character; the only separator that can appear is the
underscore. -/
theorem claim7_output_charset (s : String) (c : Char) (hc : c ∈ (normalizer s).toList) :
    isWordChar c = true ∧ c.isUpper = false ∧ isSpaceChar c = false :=
  normalizer_mem_char s c hc

/-- Witness for claim C7 at a concrete input. -/
theorem claim7_output_charset_witness :
    ('a' ∈ (normalizer "A b!").toList) ∧
      (isWordChar 'a' = true ∧ Char.isUpper 'a' = false ∧ isSpaceChar 'a' = false) :=
  ⟨by decide, claim7_output_charset "A b!" 'a' (by decide)⟩

/-- Claim C8: `normalizer` is idempotent on its own output: normalizing
twice equals normalizing once, for every input string. -/
theorem claim8_idempotent (s : String) : normalizer (normalizer s) = normalizer s :=
  normalizer_of_canonical (normalizer s) (normalizer_mem_char s)

/-- Claim C9: the output of `sorter` holds one and the same value at
every position carrying the same original string, and when `j` is the
last occurrence of that string the shared value is the assignment that
steps a-c computed at `j`: the internal dict is keyed by the original
string and later occurrences overwrite earlier ones. -/
theorem claim9_duplicate_origins («alias» origin normalized l : List String)
    (hlen : origin.length = normalized.length)
    (hrun : sorter origin normalized «alias» = some l)
    (i j : Nat) (hi : i < origin.length) (hj : j < origin.length)
    (heq : origin.getD i "" = origin.getD j "") :
    l.getD i "" = l.getD j "" ∧
      ((∀ k, j < k → k < origin.length → origin.getD k "" ≠ origin.getD j "") →
        l.getD i ""
          = stepAssign «alias» (usedAfter «alias» [] ((origin.zip normalized).take j))
              (normalized.getD j "")) := by
  have hgi := sorter_getD «alias» origin normalized l hrun i hi
  have hgj := sorter_getD «alias» origin normalized l hrun j hj
  rw [heq] at hgi
  constructor
  · rw [hgi] at hgj
    exact Option.some.inj hgj
  · intro hlast
    have hlast' : ∀ k, j < k → k < origin.length → origin.getD k "" ≠ origin.getD i "" := by
      intro k h1 h2 hc
      exact hlast k h1 h2 (by rw [hc, heq])
    exact sorter_getD_last «alias» origin normalized l hlen hrun i j hi hj heq.symm hlast'

/-- Witness for claim C9 at a concrete input. -/
theorem claim9_duplicate_origins_witness :
    sorter ["C", "C"] ["c", "c"] ["c", "cd"] = some ["cd", "cd"] ∧
      ((["cd", "cd"] : List String).getD 0 "" = (["cd", "cd"] : List String).getD 1 "" ∧
        ((∀ k, 1 < k → k < (["C", "C"] : List String).length →
            (["C", "C"] : List String).getD k "" ≠ (["C", "C"] : List String).getD 1 "") →
          (["cd", "cd"] : List String).getD 0 ""
            = stepAssign ["c", "cd"]
                (usedAfter ["c", "cd"] [] (((["C", "C"] : List String).zip ["c", "c"]).take 1))
                ((["c", "c"] : List String).getD 1 ""))) :=
  ⟨by decide,
    claim9_duplicate_origins ["c", "cd"] ["C", "C"] ["c", "c"] ["cd", "cd"]
      (by decide) (by decide) 0 1 (by decide) (by decide) (by decide)⟩

/-- Claim C10: when a field's normalized form is the empty string and
the empty string is not itself a pool member, the matching step records
for that field the first not-yet-consumed alias of the pool in pool
order (every string starts with the empty prefix), and it records the
empty-string fallback exactly when every pool alias is already
consumed. -/
theorem claim10_empty_norm («alias» u : List String) (m : List (String × String)) (o : String)
    (hno : "" ∉ «alias») :
    List.lookup o (sorterStep «alias» (m, u) o "").1
        = some ((«alias».find? (fun a => !(u.contains a))).getD "") ∧
      («alias».find? (fun a => !(u.contains a)) = none ↔ ∀ a ∈ «alias», a ∈ u) := by
  have hpred : (fun a => startswith a "" && !(u.contains a)) = (fun a => !(u.contains a)) := by
    funext a
    rw [startswith_empty, Bool.true_and]
  constructor
  · rw [sorterStep_eq, lookup_updateMap, if_pos rfl]
    have hstep : stepAssign «alias» u ""
        = ((«alias».find? (fun a => !(u.contains a))).getD "") := by
      unfold stepAssign
      rw [if_neg (fun hc => hno hc.1), hpred]
      cases hf : «alias».find? (fun a => !(u.contains a)) with
      | none => rfl
      | some a =>
        have ha : a ∈ «alias» := List.mem_of_find?_eq_some hf
        have hne : ¬ a = "" := fun hc => hno (hc ▸ ha)
        show (if a = "" then "" else a) = (some a).getD ""
        rw [if_neg hne]
        rfl
    rw [hstep]
  · rw [List.find?_eq_none]
    constructor
    · intro h a ha
      have h1 := h a ha
      cases hx : u.contains a with
      | true => exact List.elem_iff.mp hx
      | false => exact absurd (by rw [hx]; rfl) h1
    · intro h a ha
      have h1 : u.contains a = true := List.elem_eq_true_of_mem (h a ha)
      rw [h1]
      intro hc
      exact Bool.noConfusion hc

/-- Witness for claim C10 at a concrete input: with pool
`["x", "y"]`, `"x"` already consumed and normalized form `""`, the
field is assigned `"y"`, the first unconsumed pool alias. -/
theorem claim10_empty_norm_witness :
    ("" : String) ∉ ["x", "y"] ∧
      (List.lookup "f" (sorterStep ["x", "y"] ([], ["x"]) "f" "").1
          = some (((["x", "y"] : List String).find? (fun a => !(List.contains ["x"] a))).getD "") ∧
        ((["x", "y"] : List String).find? (fun a => !(List.contains ["x"] a)) = none ↔
          ∀ a ∈ (["x", "y"] : List String), a ∈ (["x"] : List String))) :=
  ⟨by decide, claim10_empty_norm ["x", "y"] ["x"] [] "f" (by decide)⟩
